import Mathlib

/-!
Verification of the lazy cached sequence adapter in `src/lazy.py` (class
`LazyList`).

The Python class is shallowly embedded.  The wrapped iterator is modelled by
the list of the elements it has not produced yet (claims quantify over finite
sources); `next` on it succeeds exactly when that list is nonempty.  Python
exceptions are modelled as values of `PyError`, and every method returns its
(possibly mutated) receiver together with its outcome, because in Python a
raised exception leaves the mutations made so far in place.  The generator
protocol of the code's own doctests is used for `__iter__`: a `StopIteration`
that is raised in, or propagates out of, the generator body ends the
iteration seen by the consumer.
-/

deriving instance DecidableEq for Except

namespace NonstrictLazy

/-- Exceptions that flow through the adapter: `StopIteration` (end of the
wrapped iterator), `IndexError` (out-of-range list read), and the `TypeError`
that Python raises for `next(None)`. -/
inductive PyError : Type where
  | stopIteration
  | indexError
  | typeError
  deriving DecidableEq

/-- Argument of `__getitem__`/`_get`: a scalar index or a slice. -/
structure PySlice : Type where
  start : Option Int
  stop : Option Int
  deriving DecidableEq

/-- Scalar-or-slice argument of `_get`, mirroring the
`isinstance(desired_index, slice)` dispatch. -/
inductive IndexOrSlice : Type where
  | idx (i : Int)
  | slc (s : PySlice)
  deriving DecidableEq

/-- Result of `_get`: an element for a scalar index, a list for a slice. -/
inductive GetResult (α : Type) : Type where
  | elem (a : α)
  | list (xs : List α)
  deriving DecidableEq

/-- State of a `LazyList` object: the fields `_expanded`, `_iterator` and
`_expanded_len` of the Python class.  `iterator = none` models
`self._iterator is None`; `iterator = some rem` models a live iterator whose
remaining elements are `rem`. -/
structure LazyList (α : Type) : Type where
  expanded : List α
  iterator : Option (List α)
  expanded_len : Nat
  deriving DecidableEq

/-- `__init__`: empty cache, the whole source still pending, counter zero. -/
def LazyList.fresh (xs : List α) : LazyList α :=
  ⟨[], some xs, 0⟩

/-- `sys.maxsize` on a 64-bit CPython, i.e. `2 ^ 63 - 1`. -/
def sysMaxsize : Int := 9223372036854775807

/-- The `while self._expanded_len <= desired_index` loop of
`expand_to_index`, entered with a live iterator whose remaining elements are
`rem`: pull `next_val`, append it and increment the counter, or on
exhaustion set `_iterator = None` and re-raise `StopIteration`. -/
def expandLoop (exp : List α) (n : Nat) (rem : List α) (i : Int) :
    LazyList α × Option PyError :=
  if (n : Int) ≤ i then
    match rem with
    | [] => (⟨exp, none, n⟩, some PyError.stopIteration)
    | x :: rest => expandLoop (exp ++ [x]) (n + 1) rest i
  else
    (⟨exp, some rem, n⟩, none)

/-- `expand_to_index(desired_index)`.  With `_iterator = None` the loop body
would evaluate `next(None)`, which raises `TypeError`; with a live iterator
the loop is `expandLoop` (the iterator stays live for the whole loop, since
the code only clears it at the point where it raises and leaves). -/
def expandToIndex (l : LazyList α) (i : Int) : LazyList α × Option PyError :=
  match l.iterator with
  | none =>
      if (l.expanded_len : Int) ≤ i then (l, some PyError.typeError)
      else (l, none)
  | some rem => expandLoop l.expanded l.expanded_len rem i

/-- `max = desired_slice.stop or sys.maxsize`: Python `or` takes the right
operand when `stop` is falsy, i.e. when it is `None` or the integer `0`. -/
def sliceMax (s : PySlice) : Int :=
  match s.stop with
  | none => sysMaxsize
  | some v => if v = 0 then sysMaxsize else v

/-- `expand_to_slice(desired_slice)`: expand to `sliceMax`, and swallow
`IndexError`/`StopIteration`, setting `_iterator = None`.  A `TypeError`
would propagate (that branch is unreachable from `_get`, which only expands
while the iterator is live). -/
def expandToSlice (l : LazyList α) (s : PySlice) : LazyList α × Option PyError :=
  match expandToIndex l (sliceMax s) with
  | (l', none) => (l', none)
  | (l', some PyError.stopIteration) => (⟨l'.expanded, none, l'.expanded_len⟩, none)
  | (l', some PyError.indexError) => (⟨l'.expanded, none, l'.expanded_len⟩, none)
  | (l', some PyError.typeError) => (l', some PyError.typeError)

/-- Reading a Python list at an already-shifted index: fails with
`IndexError` unless `0 ≤ j < len`. -/
def pyIndexRead (l : List α) (j : Int) : Except PyError α :=
  if 0 ≤ j then
    match l.get? j.toNat with
    | some a => Except.ok a
    | none => Except.error PyError.indexError
  else
    Except.error PyError.indexError

/-- Python scalar list read `lst[i]`: a negative index is shifted by the
length; an index that is still out of range raises `IndexError`. -/
def pyGetElem (l : List α) (i : Int) : Except PyError α :=
  pyIndexRead l (if i < 0 then i + l.length else i)

/-- Clamping of one slice bound by Python list slicing (step 1): a negative
bound is shifted by the length and clamped below at 0, a nonnegative one is
clamped above at the length. -/
def pyAdjustIndex (n : Nat) (i : Int) : Nat :=
  if i < 0 then (i + n).toNat else min i.toNat n

/-- Python list slice read `lst[a:b]` with step 1 and optional bounds:
the elements at positions `a' ≤ p < b'` for the clamped bounds. -/
def pyGetSlice (l : List α) (s : PySlice) : List α :=
  let a := match s.start with
           | none => 0
           | some i => pyAdjustIndex l.length i
  let b := match s.stop with
           | none => l.length
           | some i => pyAdjustIndex l.length i
  (l.take b).drop a

/-- `_get(desired_index)`: expand only while `self._iterator is not None`
(dispatching on scalar versus slice), then read `self._expanded` natively.
An exception from the expansion propagates, keeping the mutated state. -/
def lget (l : LazyList α) (d : IndexOrSlice) : LazyList α × Except PyError (GetResult α) :=
  let step : LazyList α × Option PyError :=
    match l.iterator with
    | some _ =>
        match d with
        | IndexOrSlice.slc s => expandToSlice l s
        | IndexOrSlice.idx i => expandToIndex l i
    | none => (l, none)
  match step with
  | (l', some err) => (l', Except.error err)
  | (l', none) =>
      match d with
      | IndexOrSlice.idx i =>
          match pyGetElem l'.expanded i with
          | Except.ok a => (l', Except.ok (GetResult.elem a))
          | Except.error err => (l', Except.error err)
      | IndexOrSlice.slc s => (l', Except.ok (GetResult.list (pyGetSlice l'.expanded s)))

/-- `__getitem__`: `_get`, converting a `StopIteration` into `IndexError`. -/
def getitem (l : LazyList α) (d : IndexOrSlice) : LazyList α × Except PyError (GetResult α) :=
  match lget l d with
  | (l', Except.error PyError.stopIteration) => (l', Except.error PyError.indexError)
  | r => r

/-- One step of the cursor returned by `__iter__` at position `index`:
`yield self._get(index)` when it succeeds; on `IndexError` the generator
raises `StopIteration`, and a propagating `StopIteration` also ends the
generator, so every failure is end-of-iteration (`none`) to the consumer.
A scalar read never produces `GetResult.list`, so that branch is vacuous. -/
def iterStep (l : LazyList α) (index : Nat) : LazyList α × Option α :=
  match lget l (IndexOrSlice.idx (index : Int)) with
  | (l', Except.ok (GetResult.elem a)) => (l', some a)
  | (l', Except.ok (GetResult.list _)) => (l', none)
  | (l', Except.error _) => (l', none)

/-- Advancing a cursor from position `index` for at most `fuel` steps,
collecting the yielded elements in order (the cursor itself is unbounded;
`fuel` only truncates the observation). -/
def iterFrom (l : LazyList α) (index : Nat) : Nat → LazyList α × List α
  | 0 => (l, [])
  | fuel + 1 =>
      match iterStep l index with
      | (l', none) => (l', [])
      | (l', some a) =>
          let r := iterFrom l' (index + 1) fuel
          (r.1, a :: r.2)

/-- `list(il)`: a fresh cursor from position 0, observed for `fuel` steps. -/
def iterAll (l : LazyList α) (fuel : Nat) : LazyList α × List α :=
  iterFrom l 0 fuel

/-- `__bool__`: `for _ in self: return True` / `return False` — one step of
a fresh cursor. -/
def lbool (l : LazyList α) : LazyList α × Bool :=
  match iterStep l 0 with
  | (l', some _) => (l', true)
  | (l', none) => (l', false)

/-- `__len__`: `expand_to_index(sys.maxsize)` catching only `StopIteration`,
then `len(self._expanded)`.  Any other exception (the `TypeError` from
`next(None)` on an exhausted list) propagates. -/
def llen (l : LazyList α) : LazyList α × Except PyError Nat :=
  match expandToIndex l sysMaxsize with
  | (l', none) => (l', Except.ok l'.expanded.length)
  | (l', some PyError.stopIteration) => (l', Except.ok l'.expanded.length)
  | (l', some e) => (l', Except.error e)

/-- Python's `in` fallback over `__iter__`: advance a fresh cursor,
comparing each yielded element to `v`, stopping at the first match. -/
def containsFrom [DecidableEq α] (l : LazyList α) (v : α) (index : Nat) :
    Nat → LazyList α × Bool
  | 0 => (l, false)
  | fuel + 1 =>
      match iterStep l index with
      | (l', none) => (l', false)
      | (l', some a) =>
          if a = v then (l', true) else containsFrom l' v (index + 1) fuel

/-- `v in il`, observed for at most `fuel` cursor steps. -/
def lcontains [DecidableEq α] (l : LazyList α) (v : α) (fuel : Nat) :
    LazyList α × Bool :=
  containsFrom l v 0 fuel

/-- The public operations of the adapter, for stating invariants that every
operation preserves.  `iterate` and `mem` carry the observation fuel. -/
inductive Op (α : Type) : Type where
  | getIdx (i : Int)
  | getSlc (s : PySlice)
  | iterate (fuel : Nat)
  | length
  | toBool
  | mem (v : α) (fuel : Nat)

/-- The state after one public operation (its output is discarded). -/
def runOp [DecidableEq α] (l : LazyList α) : Op α → LazyList α
  | Op.getIdx i => (getitem l (IndexOrSlice.idx i)).1
  | Op.getSlc s => (getitem l (IndexOrSlice.slc s)).1
  | Op.iterate fuel => (iterFrom l 0 fuel).1
  | Op.length => (llen l).1
  | Op.toBool => (lbool l).1
  | Op.mem v fuel => (containsFrom l v 0 fuel).1

/-- The state after a sequence of public operations. -/
def runOps [DecidableEq α] (l : LazyList α) : List (Op α) → LazyList α
  | [] => l
  | op :: ops => runOps (runOp l op) ops

/-- Number of `next()` calls made on the wrapped iterator of a `LazyList`
built by `LazyList.fresh xs`: one per element moved into the cache, plus the
final exhausting call if the iterator has been cleared. -/
def pulls (xs : List α) (l : LazyList α) : Nat :=
  match l.iterator with
  | some rem => xs.length - rem.length
  | none => xs.length + 1

/-! ### Characterization of the expansion loop -/

theorem expandLoop_not_le (exp : List α) (n : Nat) (rem : List α) (i : Int)
    (h : ¬ (n : Int) ≤ i) :
    expandLoop exp n rem i = (⟨exp, some rem, n⟩, none) := by
  unfold expandLoop
  rw [if_neg h]

theorem expandLoop_cons (exp : List α) (n : Nat) (x : α) (rest : List α) (i : Int)
    (h : (n : Int) ≤ i) :
    expandLoop exp n (x :: rest) i = expandLoop (exp ++ [x]) (n + 1) rest i := by
  conv_lhs => unfold expandLoop
  rw [if_pos h]

theorem expandLoop_drain (rem : List α) : ∀ (exp : List α) (n : Nat) (i : Int),
    (n : Int) + rem.length ≤ i →
    expandLoop exp n rem i =
      (⟨exp ++ rem, none, n + rem.length⟩, some PyError.stopIteration) := by
  induction rem with
  | nil =>
      intro exp n i h
      simp only [List.length_nil, Nat.cast_zero, add_zero] at h
      unfold expandLoop
      rw [if_pos h]
      simp
  | cons x rest ih =>
      intro exp n i h
      simp only [List.length_cons] at h
      push_cast at h
      rw [expandLoop_cons exp n x rest i (by omega)]
      rw [ih (exp ++ [x]) (n + 1) i (by push_cast; omega)]
      simp only [List.append_assoc, List.singleton_append, List.length_cons]
      have harith : n + 1 + rest.length = n + (rest.length + 1) := by omega
      rw [harith]

theorem expandLoop_mid (rem : List α) : ∀ (exp : List α) (n : Nat) (i : Int),
    (n : Int) ≤ i → i < (n : Int) + rem.length →
    expandLoop exp n rem i =
      (⟨exp ++ rem.take ((i + 1).toNat - n), some (rem.drop ((i + 1).toNat - n)),
        (i + 1).toNat⟩, none) := by
  induction rem with
  | nil =>
      intro exp n i h1 h2
      exfalso
      simp only [List.length_nil, Nat.cast_zero, add_zero] at h2
      omega
  | cons x rest ih =>
      intro exp n i h1 h2
      simp only [List.length_cons] at h2
      push_cast at h2
      rw [expandLoop_cons exp n x rest i h1]
      by_cases hc : (n : Int) + 1 ≤ i
      · rw [ih (exp ++ [x]) (n + 1) i (by push_cast; omega) (by push_cast; omega)]
        have hn : (i + 1).toNat - n = ((i + 1).toNat - (n + 1)) + 1 := by omega
        rw [hn]
        simp [List.take_succ_cons, List.drop_succ_cons, List.append_assoc]
      · rw [expandLoop_not_le (exp ++ [x]) (n + 1) rest i (by push_cast; omega)]
        have hn : (i + 1).toNat - n = 1 := by omega
        rw [hn]
        have hlen : (i + 1).toNat = n + 1 := by omega
        simp [hlen]

/-! ### Lifting to `expandToIndex` -/

theorem expandToIndex_some (exp : List α) (n : Nat) (rem : List α) (i : Int) :
    expandToIndex ⟨exp, some rem, n⟩ i = expandLoop exp n rem i := rfl

theorem expandToIndex_none (exp : List α) (n : Nat) (i : Int) :
    expandToIndex ⟨exp, none, n⟩ i =
      if (n : Int) ≤ i then ((⟨exp, none, n⟩ : LazyList α), some PyError.typeError)
      else ((⟨exp, none, n⟩ : LazyList α), none) := rfl

/-! ### State evolution: the three invariants of the data model -/

/-- `l'` is reachable from `l`: the counter stays equal to the cache length,
the cache is only appended to, and an absent iterator stays absent. -/
def Evolves (l l' : LazyList α) : Prop :=
  (l.expanded_len = l.expanded.length → l'.expanded_len = l'.expanded.length)
  ∧ (∃ t, l'.expanded = l.expanded ++ t)
  ∧ (l.iterator = none → l'.iterator = none)

theorem evolves_refl (l : LazyList α) : Evolves l l :=
  ⟨fun h => h, ⟨[], by simp⟩, fun h => h⟩

theorem evolves_trans {a b c : LazyList α} (h1 : Evolves a b) (h2 : Evolves b c) :
    Evolves a c := by
  obtain ⟨t1, e1⟩ := h1.2.1
  obtain ⟨t2, e2⟩ := h2.2.1
  exact ⟨fun h => h2.1 (h1.1 h),
    ⟨t1 ++ t2, by rw [e2, e1, List.append_assoc]⟩,
    fun h => h2.2.2 (h1.2.2 h)⟩

theorem evolves_clear (l l' : LazyList α) (h : Evolves l l') :
    Evolves l ⟨l'.expanded, none, l'.expanded_len⟩ :=
  ⟨fun hh => h.1 hh, h.2.1, fun _ => rfl⟩

theorem evolves_expandLoop (rem : List α) : ∀ (exp : List α) (n : Nat) (i : Int),
    Evolves ⟨exp, some rem, n⟩ (expandLoop exp n rem i).1 := by
  induction rem with
  | nil =>
      intro exp n i
      unfold expandLoop
      by_cases h : (n : Int) ≤ i
      · rw [if_pos h]
        exact ⟨fun hh => hh, ⟨[], by simp⟩, fun _ => rfl⟩
      · rw [if_neg h]
        exact evolves_refl _
  | cons x rest ih =>
      intro exp n i
      by_cases h : (n : Int) ≤ i
      · rw [expandLoop_cons _ _ _ _ _ h]
        refine evolves_trans ?_ (ih (exp ++ [x]) (n + 1) i)
        refine ⟨?_, ⟨[x], rfl⟩, ?_⟩
        · intro hh
          simp only at hh
          simp [List.length_append, hh]
        · intro hh
          cases hh
      · rw [expandLoop_not_le _ _ _ _ h]
        exact evolves_refl _

theorem evolves_expandToIndex (l : LazyList α) (i : Int) :
    Evolves l (expandToIndex l i).1 := by
  obtain ⟨exp, it, n⟩ := l
  cases it with
  | none =>
      rw [expandToIndex_none]
      by_cases h : (n : Int) ≤ i
      · rw [if_pos h]
        exact evolves_refl _
      · rw [if_neg h]
        exact evolves_refl _
  | some rem =>
      rw [expandToIndex_some]
      exact evolves_expandLoop rem exp n i

theorem evolves_expandToSlice (l : LazyList α) (s : PySlice) :
    Evolves l (expandToSlice l s).1 := by
  rcases hE : expandToIndex l (sliceMax s) with ⟨l', e⟩
  have h : Evolves l l' := by
    have h0 := evolves_expandToIndex l (sliceMax s)
    rw [hE] at h0
    exact h0
  unfold expandToSlice
  rw [hE]
  match e with
  | none => exact h
  | some PyError.stopIteration => exact evolves_clear _ _ h
  | some PyError.indexError => exact evolves_clear _ _ h
  | some PyError.typeError => exact h

theorem lget_fst (l : LazyList α) (d : IndexOrSlice) :
    (lget l d).1 =
      match l.iterator, d with
      | some _, IndexOrSlice.slc s => (expandToSlice l s).1
      | some _, IndexOrSlice.idx i => (expandToIndex l i).1
      | none, _ => l := by
  unfold lget
  cases hit : l.iterator with
  | none =>
      cases d with
      | idx i =>
          cases hr : pyGetElem l.expanded i with
          | ok a => simp [hr]
          | error err => simp [hr]
      | slc s => simp
  | some rem =>
      cases d with
      | idx i =>
          rcases hE : expandToIndex l i with ⟨l', e⟩
          cases e with
          | none =>
              cases hr : pyGetElem l'.expanded i with
              | ok a => simp [hE, hr]
              | error err => simp [hE, hr]
          | some err => simp [hE]
      | slc s =>
          rcases hE : expandToSlice l s with ⟨l', e⟩
          cases e with
          | none => simp [hE]
          | some err => simp [hE]

theorem evolves_lget (l : LazyList α) (d : IndexOrSlice) : Evolves l (lget l d).1 := by
  rw [lget_fst]
  cases hit : l.iterator with
  | none => exact evolves_refl _
  | some rem =>
      cases d with
      | idx i => exact evolves_expandToIndex l i
      | slc s => exact evolves_expandToSlice l s

theorem getitem_fst (l : LazyList α) (d : IndexOrSlice) :
    (getitem l d).1 = (lget l d).1 := by
  unfold getitem
  rcases hg : lget l d with ⟨l', r⟩
  match r with
  | Except.ok v => rfl
  | Except.error PyError.stopIteration => rfl
  | Except.error PyError.indexError => rfl
  | Except.error PyError.typeError => rfl

theorem evolves_getitem (l : LazyList α) (d : IndexOrSlice) :
    Evolves l (getitem l d).1 := by
  rw [getitem_fst]
  exact evolves_lget l d

theorem iterStep_fst (l : LazyList α) (index : Nat) :
    (iterStep l index).1 = (lget l (IndexOrSlice.idx (index : Int))).1 := by
  unfold iterStep
  rcases hg : lget l (IndexOrSlice.idx (index : Int)) with ⟨l', r⟩
  match r with
  | Except.ok (GetResult.elem a) => rfl
  | Except.ok (GetResult.list xs) => rfl
  | Except.error e => rfl

theorem evolves_iterStep (l : LazyList α) (index : Nat) :
    Evolves l (iterStep l index).1 := by
  rw [iterStep_fst]
  exact evolves_lget l _

theorem evolves_iterFrom (fuel : Nat) : ∀ (l : LazyList α) (index : Nat),
    Evolves l (iterFrom l index fuel).1 := by
  induction fuel with
  | zero => intro l index; exact evolves_refl _
  | succ fuel ih =>
      intro l index
      unfold iterFrom
      rcases hs : iterStep l index with ⟨l', o⟩
      have h1 : Evolves l l' := by
        have h0 := evolves_iterStep l index
        rw [hs] at h0
        exact h0
      cases o with
      | none => exact h1
      | some a => exact evolves_trans h1 (ih l' (index + 1))

theorem evolves_lbool (l : LazyList α) : Evolves l (lbool l).1 := by
  unfold lbool
  rcases hs : iterStep l 0 with ⟨l', o⟩
  have h1 : Evolves l l' := by
    have h0 := evolves_iterStep l 0
    rw [hs] at h0
    exact h0
  cases o with
  | none => exact h1
  | some a => exact h1

theorem evolves_llen (l : LazyList α) : Evolves l (llen l).1 := by
  unfold llen
  rcases hE : expandToIndex l sysMaxsize with ⟨l', e⟩
  have h1 : Evolves l l' := by
    have h0 := evolves_expandToIndex l sysMaxsize
    rw [hE] at h0
    exact h0
  match e with
  | none => exact h1
  | some PyError.stopIteration => exact h1
  | some PyError.indexError => exact h1
  | some PyError.typeError => exact h1

theorem evolves_containsFrom [DecidableEq α] (fuel : Nat) :
    ∀ (l : LazyList α) (v : α) (index : Nat),
    Evolves l (containsFrom l v index fuel).1 := by
  induction fuel with
  | zero => intro l v index; exact evolves_refl _
  | succ fuel ih =>
      intro l v index
      unfold containsFrom
      rcases hs : iterStep l index with ⟨l', o⟩
      have h1 : Evolves l l' := by
        have h0 := evolves_iterStep l index
        rw [hs] at h0
        exact h0
      cases o with
      | none => exact h1
      | some a =>
          dsimp only
          by_cases hv : a = v
          · rw [if_pos hv]
            exact h1
          · rw [if_neg hv]
            exact evolves_trans h1 (ih l' v (index + 1))

theorem evolves_runOp [DecidableEq α] (l : LazyList α) (op : Op α) :
    Evolves l (runOp l op) := by
  cases op with
  | getIdx i => exact evolves_getitem l _
  | getSlc s => exact evolves_getitem l _
  | iterate fuel => exact evolves_iterFrom fuel l 0
  | length => exact evolves_llen l
  | toBool => exact evolves_lbool l
  | mem v fuel => exact evolves_containsFrom fuel l v 0

theorem evolves_runOps [DecidableEq α] (ops : List (Op α)) : ∀ (l : LazyList α),
    Evolves l (runOps l ops) := by
  induction ops with
  | nil => intro l; exact evolves_refl _
  | cons op ops ih =>
      intro l
      exact evolves_trans (evolves_runOp l op) (ih (runOp l op))

/-! ### Reading the cache -/

theorem pyGetElem_nat (l : List α) (j : Nat) :
    pyGetElem l (j : Int) =
      match l.get? j with
      | some a => Except.ok a
      | none => Except.error PyError.indexError := by
  unfold pyGetElem pyIndexRead
  rw [if_neg (show ¬ ((j : Int) < 0) by omega)]
  rw [if_pos (show (0 : Int) ≤ (j : Int) by omega)]
  rw [Int.toNat_natCast]

theorem pyGetElem_append_length (exp : List α) (x : α) :
    pyGetElem (exp ++ [x]) (exp.length : Int) = Except.ok x := by
  rw [pyGetElem_nat, List.get?_concat_length]

theorem pyGetElem_lt (l : List α) (j : Nat) (h : j < l.length) :
    pyGetElem l (j : Int) = Except.ok (l.get ⟨j, h⟩) := by
  rw [pyGetElem_nat, List.get?_eq_get h]

theorem pyGetElem_ge (l : List α) (j : Nat) (h : l.length ≤ j) :
    pyGetElem l (j : Int) = Except.error PyError.indexError := by
  rw [pyGetElem_nat, List.get?_eq_none.mpr h]

/-! ### Unfolding `_get` on the two iterator states -/

theorem lget_idx_live (exp : List α) (n : Nat) (rem : List α) (i : Int) :
    lget ⟨exp, some rem, n⟩ (IndexOrSlice.idx i) =
      (match expandLoop exp n rem i with
       | (l', some err) => (l', Except.error err)
       | (l', none) =>
           match pyGetElem l'.expanded i with
           | Except.ok a => (l', Except.ok (GetResult.elem a))
           | Except.error err => (l', Except.error err)) := rfl

theorem lget_idx_dead (exp : List α) (n : Nat) (i : Int) :
    lget ⟨exp, none, n⟩ (IndexOrSlice.idx i) =
      (match pyGetElem exp i with
       | Except.ok a => ((⟨exp, none, n⟩ : LazyList α), Except.ok (GetResult.elem a))
       | Except.error err => ((⟨exp, none, n⟩ : LazyList α), Except.error err)) := rfl

theorem lget_slc_live (exp : List α) (n : Nat) (rem : List α) (s : PySlice) :
    lget ⟨exp, some rem, n⟩ (IndexOrSlice.slc s) =
      (match expandToSlice ⟨exp, some rem, n⟩ s with
       | (l', some err) => (l', Except.error err)
       | (l', none) => (l', Except.ok (GetResult.list (pyGetSlice l'.expanded s)))) := rfl

theorem lget_slc_dead (exp : List α) (n : Nat) (s : PySlice) :
    lget ⟨exp, none, n⟩ (IndexOrSlice.slc s) =
      ((⟨exp, none, n⟩ : LazyList α), Except.ok (GetResult.list (pyGetSlice exp s))) := rfl

/-! ### One cursor step on canonical states -/

theorem iterStep_exhaust (exp : List α) :
    iterStep ⟨exp, some [], exp.length⟩ exp.length =
      ((⟨exp, none, exp.length⟩ : LazyList α), none) := by
  unfold iterStep
  rw [lget_idx_live]
  rw [expandLoop_drain [] exp exp.length (exp.length : Int)
    (by simp only [List.length_nil]; push_cast; omega)]
  simp

theorem iterStep_yield (exp : List α) (x : α) (rest : List α) :
    iterStep ⟨exp, some (x :: rest), exp.length⟩ exp.length =
      ((⟨exp ++ [x], some rest, exp.length + 1⟩ : LazyList α), some x) := by
  unfold iterStep
  rw [lget_idx_live]
  rw [expandLoop_mid (x :: rest) exp exp.length (exp.length : Int) (le_refl _)
    (by simp only [List.length_cons]; push_cast; omega)]
  have h1 : ((exp.length : Int) + 1).toNat = exp.length + 1 := by omega
  rw [h1]
  have h2 : exp.length + 1 - exp.length = 1 := by omega
  rw [h2]
  dsimp only
  rw [show (x :: rest).take 1 = [x] from rfl, show (x :: rest).drop 1 = rest from rfl]
  rw [pyGetElem_append_length]

/-! ### Full iteration and membership on canonical states -/

theorem iterFrom_yields (rem : List α) : ∀ (exp : List α) (fuel : Nat),
    rem.length + 1 ≤ fuel →
    iterFrom ⟨exp, some rem, exp.length⟩ exp.length fuel =
      ((⟨exp ++ rem, none, (exp ++ rem).length⟩ : LazyList α), rem) := by
  induction rem with
  | nil =>
      intro exp fuel hf
      obtain ⟨f, rfl⟩ : ∃ f, fuel = f + 1 := ⟨fuel - 1, by omega⟩
      unfold iterFrom
      rw [iterStep_exhaust]
      simp
  | cons x rest ih =>
      intro exp fuel hf
      simp only [List.length_cons] at hf
      obtain ⟨f, rfl⟩ : ∃ f, fuel = f + 1 := ⟨fuel - 1, by omega⟩
      unfold iterFrom
      rw [iterStep_yield]
      dsimp only
      have hlen : exp.length + 1 = (exp ++ [x]).length := by simp
      rw [hlen]
      rw [ih (exp ++ [x]) f (by omega)]
      simp [List.append_assoc]

theorem containsFrom_finds [DecidableEq α] (k : Nat) :
    ∀ (rem exp : List α) (v : α) (fuel : Nat),
    rem.get? k = some v → (∀ j, j < k → rem.get? j ≠ some v) → k + 1 ≤ fuel →
    containsFrom ⟨exp, some rem, exp.length⟩ v exp.length fuel =
      ((⟨exp ++ rem.take (k + 1), some (rem.drop (k + 1)),
        exp.length + (k + 1)⟩ : LazyList α), true) := by
  induction k with
  | zero =>
      intro rem exp v fuel hget hfirst hf
      cases rem with
      | nil => cases hget
      | cons x rest =>
          obtain ⟨f, rfl⟩ : ∃ f, fuel = f + 1 := ⟨fuel - 1, by omega⟩
          unfold containsFrom
          rw [iterStep_yield]
          dsimp only
          have hx : x = v := by simpa using hget
          rw [if_pos hx]
          simp
  | succ k ih =>
      intro rem exp v fuel hget hfirst hf
      cases rem with
      | nil => cases hget
      | cons x rest =>
          obtain ⟨f, rfl⟩ : ∃ f, fuel = f + 1 := ⟨fuel - 1, by omega⟩
          unfold containsFrom
          rw [iterStep_yield]
          dsimp only
          have hx : ¬ (x = v) := by
            have h0 := hfirst 0 (Nat.succ_pos k)
            simpa using h0
          rw [if_neg hx]
          have hlen : exp.length + 1 = (exp ++ [x]).length := by simp
          rw [hlen]
          rw [ih rest (exp ++ [x]) v f (by simpa using hget)
            (fun j hj => by
              have h0 := hfirst (j + 1) (by omega)
              simpa using h0)
            (by omega)]
          simp only [List.take_succ_cons, List.drop_succ_cons, List.append_assoc,
            List.singleton_append, List.length_append, List.length_singleton]
          have harith : exp.length + 1 + (k + 1) = exp.length + (k + 1 + 1) := by omega
          rw [harith]

/-! ### Successful expansion is idempotent (memoization) -/

theorem expandLoop_success (rem : List α) : ∀ (exp : List α) (n : Nat) (i : Int)
    (l' : LazyList α), expandLoop exp n rem i = (l', none) →
    (∃ rem', l'.iterator = some rem') ∧ ¬ ((l'.expanded_len : Int) ≤ i) := by
  induction rem with
  | nil =>
      intro exp n i l' h
      unfold expandLoop at h
      by_cases hc : (n : Int) ≤ i
      · rw [if_pos hc] at h
        exact absurd (congrArg Prod.snd h) (by simp)
      · rw [if_neg hc] at h
        injection h with h1 h2
        subst h1
        exact ⟨⟨[], rfl⟩, hc⟩
  | cons x rest ih =>
      intro exp n i l' h
      by_cases hc : (n : Int) ≤ i
      · rw [expandLoop_cons _ _ _ _ _ hc] at h
        exact ih (exp ++ [x]) (n + 1) i l' h
      · rw [expandLoop_not_le _ _ _ _ hc] at h
        injection h with h1 h2
        subst h1
        exact ⟨⟨x :: rest, rfl⟩, hc⟩

theorem getitem_idx_idem (l l' : LazyList α) (i : Int) (r : GetResult α)
    (h : getitem l (IndexOrSlice.idx i) = (l', Except.ok r)) :
    getitem l' (IndexOrSlice.idx i) = (l', Except.ok r) := by
  have hl : lget l (IndexOrSlice.idx i) = (l', Except.ok r) := by
    unfold getitem at h
    rcases hg : lget l (IndexOrSlice.idx i) with ⟨l'', r''⟩
    rw [hg] at h
    match r'' with
    | Except.ok v =>
        simp only [Prod.mk.injEq, Except.ok.injEq] at h
        obtain ⟨rfl, rfl⟩ := h
        rfl
    | Except.error PyError.stopIteration => simp at h
    | Except.error PyError.indexError => simp at h
    | Except.error PyError.typeError => simp at h
  obtain ⟨exp, it, n⟩ := l
  cases it with
  | none =>
      rw [lget_idx_dead] at hl
      cases hp : pyGetElem exp i with
      | ok a =>
          rw [hp] at hl
          simp only [Prod.mk.injEq, Except.ok.injEq] at hl
          obtain ⟨rfl, rfl⟩ := hl
          unfold getitem
          rw [lget_idx_dead, hp]
      | error e =>
          rw [hp] at hl
          simp at hl
  | some rem =>
      rw [lget_idx_live] at hl
      rcases hE : expandLoop exp n rem i with ⟨l'', e⟩
      rw [hE] at hl
      cases e with
      | some err => simp at hl
      | none =>
          dsimp only at hl
          cases hp : pyGetElem l''.expanded i with
          | ok a =>
              rw [hp] at hl
              simp only [Prod.mk.injEq, Except.ok.injEq] at hl
              obtain ⟨rfl, rfl⟩ := hl
              obtain ⟨⟨rem', hrem⟩, hnle⟩ := expandLoop_success rem exp n i l'' hE
              obtain ⟨exp', it', n'⟩ := l''
              simp only at hrem
              subst hrem
              unfold getitem
              rw [lget_idx_live]
              rw [expandLoop_not_le exp' n' rem' i hnle]
              dsimp only
              simp only at hp
              rw [hp]
          | error e' =>
              rw [hp] at hl
              simp at hl

/-! ### Pull counting for scalar accesses (laziness bound) -/

/-- Reachable states of a `LazyList.fresh xs` adapter that has served only
scalar reads with index at most `k`: the counter matches the cache, the
cache has at most `k + 1` elements, and the iterator holds exactly the
unconsumed suffix — or the source was drained, which forced `len xs ≤ k`. -/
def ScalarReach (xs : List α) (k : Nat) (l : LazyList α) : Prop :=
  l.expanded_len = l.expanded.length ∧
  l.expanded.length ≤ k + 1 ∧
  ((l.iterator = some (xs.drop l.expanded.length) ∧ l.expanded.length ≤ xs.length)
   ∨ (l.iterator = none ∧ l.expanded.length = xs.length ∧ xs.length ≤ k))

theorem scalarReach_fresh (xs : List α) (k : Nat) :
    ScalarReach xs k (LazyList.fresh xs) := by
  unfold ScalarReach LazyList.fresh
  simp

theorem scalarReach_getIdx (xs : List α) (k : Nat) (l : LazyList α) (i : Int)
    (hi : i ≤ (k : Int)) (h : ScalarReach xs k l) :
    ScalarReach xs k (getitem l (IndexOrSlice.idx i)).1 := by
  rw [getitem_fst, lget_fst]
  obtain ⟨exp, it, n⟩ := l
  obtain ⟨h1, h2, h3⟩ := h
  simp only at h1 h2 h3
  cases it with
  | none => exact ⟨h1, h2, h3⟩
  | some rem =>
      dsimp only
      rw [expandToIndex_some]
      rcases h3 with ⟨hrem, hle⟩ | ⟨hnone, -, -⟩
      · have hrem' : rem = xs.drop exp.length := by injection hrem
        have hR : rem.length = xs.length - exp.length := by
          rw [hrem', List.length_drop]
        subst h1
        by_cases hc : (exp.length : Int) ≤ i
        · by_cases hmid : i < (exp.length : Int) + rem.length
          · rw [expandLoop_mid rem exp exp.length i hc hmid]
            dsimp only
            have ht : (i + 1).toNat - exp.length ≤ rem.length := by omega
            have hlen : (exp ++ rem.take ((i + 1).toNat - exp.length)).length =
                (i + 1).toNat := by
              simp only [List.length_append, List.length_take]
              omega
            refine ⟨hlen.symm, by rw [hlen]; omega, Or.inl ⟨?_, ?_⟩⟩
            · rw [hlen, hrem', List.drop_drop]
              have harith : exp.length + ((i + 1).toNat - exp.length) = (i + 1).toNat := by
                omega
              rw [harith]
            · rw [hlen]
              omega
          · rw [expandLoop_drain rem exp exp.length i (by omega)]
            dsimp only
            have hlen : (exp ++ rem).length = exp.length + rem.length := by
              simp [List.length_append]
            exact ⟨hlen.symm, by rw [hlen]; omega, Or.inr ⟨rfl, by rw [hlen]; omega, by omega⟩⟩
        · rw [expandLoop_not_le exp exp.length rem i hc]
          exact ⟨rfl, h2, Or.inl ⟨hrem, hle⟩⟩
      · cases hnone

theorem scalarReach_runOps [DecidableEq α] (xs : List α) (k : Nat) (is : List Int) :
    ∀ l : LazyList α, ScalarReach xs k l → (∀ i ∈ is, i ≤ (k : Int)) →
    ScalarReach xs k (runOps l (is.map Op.getIdx)) := by
  induction is with
  | nil => intro l h _; exact h
  | cons i is ih =>
      intro l h hall
      have hstep : ScalarReach xs k (runOp l (Op.getIdx i)) :=
        scalarReach_getIdx xs k l i (hall i (by simp)) h
      exact ih (runOp l (Op.getIdx i)) hstep (fun j hj => hall j (by simp [hj]))

theorem pulls_le_of_scalarReach (xs : List α) (k : Nat) (l : LazyList α)
    (h : ScalarReach xs k l) : pulls xs l ≤ k + 1 := by
  obtain ⟨h1, h2, h3⟩ := h
  rcases h3 with ⟨hrem, hle⟩ | ⟨hnone, hlen, hk⟩
  · unfold pulls
    rw [hrem]
    dsimp only
    rw [List.length_drop]
    omega
  · unfold pulls
    rw [hnone]
    dsimp only
    omega

/-! ### Slices and truthiness on a fresh adapter -/

theorem expandToSlice_fresh_drain (xs : List α) (s : PySlice)
    (hb : (xs.length : Int) ≤ sliceMax s) :
    expandToSlice (LazyList.fresh xs) s =
      ((⟨xs, none, xs.length⟩ : LazyList α), none) := by
  unfold expandToSlice
  rw [show LazyList.fresh xs = (⟨[], some xs, 0⟩ : LazyList α) from rfl]
  rw [expandToIndex_some]
  rw [expandLoop_drain xs [] 0 (sliceMax s) (by push_cast; omega)]
  simp

theorem pyGetSlice_nat_bounds (xs : List α) (a b : Nat) (ha : a ≤ xs.length)
    (hb : xs.length ≤ b) :
    pyGetSlice xs ⟨some (a : Int), some (b : Int)⟩ = xs.drop a := by
  unfold pyGetSlice pyAdjustIndex
  dsimp only
  rw [if_neg (show ¬ ((a : Int) < 0) by omega)]
  rw [if_neg (show ¬ ((b : Int) < 0) by omega)]
  rw [Int.toNat_natCast, Int.toNat_natCast]
  rw [min_eq_left ha, min_eq_right hb, List.take_length]

theorem lbool_fresh (xs : List α) :
    lbool (LazyList.fresh xs) =
      (match xs with
       | [] => ((⟨[], none, 0⟩ : LazyList α), false)
       | x :: rest => ((⟨[x], some rest, 1⟩ : LazyList α), true)) := by
  cases xs with
  | nil =>
      unfold lbool
      have h := iterStep_exhaust ([] : List α)
      simp only [List.length_nil] at h
      rw [show LazyList.fresh ([] : List α) = (⟨[], some [], 0⟩ : LazyList α) from rfl]
      rw [h]
  | cons x rest =>
      unfold lbool
      have h := iterStep_yield ([] : List α) x rest
      simp only [List.length_nil, List.nil_append] at h
      rw [show LazyList.fresh (x :: rest) = (⟨[], some (x :: rest), 0⟩ : LazyList α) from rfl]
      rw [h]

theorem pyGetElem_error (l : List α) (i : Int) (e : PyError)
    (h : pyGetElem l i = Except.error e) : e = PyError.indexError := by
  unfold pyGetElem pyIndexRead at h
  split at h
  · split at h
    · split at h
      · cases h
      · injection h with h1
        exact h1.symm
    · injection h with h1
      exact h1.symm
  · split at h
    · split at h
      · cases h
      · injection h with h1
        exact h1.symm
    · injection h with h1
      exact h1.symm

/-! ### The claims -/

/-- Claim C1: iterating a fresh adapter over a finite source of `N` elements
yields exactly those `N` elements in pull order and then the cursor
terminates as end-of-sequence — with any fuel beyond `N + 1` steps the
observed output is still exactly the source, and no error reaches the
consumer. -/
theorem claim_C1_iterate_all (xs : List α) (fuel : Nat)
    (hf : xs.length + 1 ≤ fuel) :
    iterAll (LazyList.fresh xs) fuel =
      ((⟨xs, none, xs.length⟩ : LazyList α), xs) := by
  unfold iterAll
  have h := iterFrom_yields xs [] fuel (by simpa using hf)
  simpa using h

theorem claim_C1_witness :
    iterAll (LazyList.fresh [10, 20, 30]) 4 =
      ((⟨[10, 20, 30], none, 3⟩ : LazyList Nat), [10, 20, 30]) :=
  claim_C1_iterate_all [10, 20, 30] 4 (by decide)

/-- Claim C2 is false on the code: on a fresh adapter over `[10, 20]`,
`get(-1)` raises `IndexOutOfRange` instead of returning `20`, the last
element of the fully-realized sequence, because `expand_to_index(-1)` never
pulls (its loop guard `_expanded_len <= -1` is false) and the read then hits
the still-empty cache. -/
theorem claim_C2_counterexample :
    (getitem (LazyList.fresh [10, 20]) (IndexOrSlice.idx (-1))).2 =
      Except.error PyError.indexError
    ∧ (getitem (LazyList.fresh [10, 20]) (IndexOrSlice.idx (-1))).2 ≠
      Except.ok (GetResult.elem 20) := by decide

/-- Claim C2 amended: a negative scalar index triggers no expansion at all,
so `get(i)` applies the host language's negative indexing to the *currently
realized cache*, leaving the state unchanged; it agrees with indexing the
fully-realized sequence only once the cache holds all of it. -/
theorem claim_C2_amended (l : LazyList α) (i : Int) (hi : i < 0) :
    getitem l (IndexOrSlice.idx i) =
      (l, Except.map GetResult.elem (pyGetElem l.expanded i)) := by
  obtain ⟨exp, it, n⟩ := l
  cases it with
  | none =>
      unfold getitem
      rw [lget_idx_dead]
      cases hp : pyGetElem exp i with
      | ok a => rfl
      | error e =>
          have he := pyGetElem_error exp i e hp
          subst he
          rfl
  | some rem =>
      unfold getitem
      rw [lget_idx_live]
      rw [expandLoop_not_le exp n rem i (by omega)]
      dsimp only
      cases hp : pyGetElem exp i with
      | ok a => rfl
      | error e =>
          have he := pyGetElem_error exp i e hp
          subst he
          rfl

theorem claim_C2_witness :
    getitem (LazyList.fresh [10, 20]) (IndexOrSlice.idx (-1)) =
      (LazyList.fresh [10, 20],
        Except.map GetResult.elem (pyGetElem (LazyList.fresh [10, 20]).expanded (-1))) :=
  claim_C2_amended (LazyList.fresh [10, 20]) (-1) (by decide)

/-- Claim C3 is violated by the code: `stop or sys.maxsize` treats the falsy
stop value `0` like `None`, so a `[0:0]` slice expands with the unbounded
sentinel and drains the whole source (all 5 elements here) instead of
realizing nothing; the expansion still reports no error. -/
theorem claim_C3_stop_zero_drains :
    sliceMax ⟨some 0, some 0⟩ = sysMaxsize
    ∧ sliceMax ⟨some 0, some 0⟩ ≠ 0
    ∧ expandToSlice (LazyList.fresh [0, 1, 2, 3, 4]) ⟨some 0, some 0⟩ =
        ((⟨[0, 1, 2, 3, 4], none, 5⟩ : LazyList Nat), none) := by decide

/-- Claim C4: the cache of a fresh adapter is empty; `get(k)` with
`k < N` realizes exactly the first `k + 1` elements and returns element `k`;
any sequence of scalar accesses with indices at most `k` makes at most
`k + 1` `next()` calls on the source; and a repeated successful scalar
access returns the identical memoized value with the state unchanged. -/
theorem claim_C4_lazy_memo [DecidableEq α] (xs : List α) (k : Nat) (v : α)
    (hk : xs.get? k = some v) :
    (LazyList.fresh xs).expanded = []
    ∧ getitem (LazyList.fresh xs) (IndexOrSlice.idx (k : Int)) =
        ((⟨xs.take (k + 1), some (xs.drop (k + 1)), k + 1⟩ : LazyList α),
          Except.ok (GetResult.elem v))
    ∧ (getitem (LazyList.fresh xs) (IndexOrSlice.idx (k : Int))).1.expanded.length = k + 1
    ∧ (∀ is : List Int, (∀ i ∈ is, i ≤ (k : Int)) →
        pulls xs (runOps (LazyList.fresh xs) (is.map Op.getIdx)) ≤ k + 1)
    ∧ (∀ (l l' : LazyList α) (i : Int) (r : GetResult α),
        getitem l (IndexOrSlice.idx i) = (l', Except.ok r) →
        getitem l' (IndexOrSlice.idx i) = (l', Except.ok r)) := by
  have hklen : k < xs.length := by
    by_contra hc
    rw [List.get?_eq_none.mpr (by omega)] at hk
    cases hk
  have hmain : getitem (LazyList.fresh xs) (IndexOrSlice.idx (k : Int)) =
      ((⟨xs.take (k + 1), some (xs.drop (k + 1)), k + 1⟩ : LazyList α),
        Except.ok (GetResult.elem v)) := by
    unfold getitem
    rw [show LazyList.fresh xs = (⟨[], some xs, 0⟩ : LazyList α) from rfl]
    rw [lget_idx_live]
    rw [expandLoop_mid xs [] 0 (k : Int) (by omega) (by push_cast; omega)]
    have h1 : ((k : Int) + 1).toNat = k + 1 := by omega
    rw [h1]
    dsimp only
    simp only [List.nil_append, Nat.sub_zero]
    have hread : pyGetElem (xs.take (k + 1)) (k : Int) = Except.ok v := by
      rw [pyGetElem_nat]
      rw [List.get?_take (by omega)]
      rw [hk]
    rw [hread]
  refine ⟨rfl, hmain, ?_, ?_, ?_⟩
  · rw [hmain]
    dsimp only
    simp only [List.length_take]
    omega
  · intro is hall
    exact pulls_le_of_scalarReach xs k _
      (scalarReach_runOps xs k is (LazyList.fresh xs) (scalarReach_fresh xs k) hall)
  · intro l l' i r h
    exact getitem_idx_idem l l' i r h

theorem claim_C4_witness :
    (LazyList.fresh [7, 8, 9]).expanded = []
    ∧ getitem (LazyList.fresh [7, 8, 9]) (IndexOrSlice.idx ((1 : Nat) : Int)) =
        ((⟨[7, 8], some [9], 2⟩ : LazyList Nat), Except.ok (GetResult.elem 8))
    ∧ (getitem (LazyList.fresh [7, 8, 9]) (IndexOrSlice.idx ((1 : Nat) : Int))).1.expanded.length = 2
    ∧ (∀ is : List Int, (∀ i ∈ is, i ≤ ((1 : Nat) : Int)) →
        pulls [7, 8, 9] (runOps (LazyList.fresh [7, 8, 9]) (is.map Op.getIdx)) ≤ 2)
    ∧ (∀ (l l' : LazyList Nat) (i : Int) (r : GetResult Nat),
        getitem l (IndexOrSlice.idx i) = (l', Except.ok r) →
        getitem l' (IndexOrSlice.idx i) = (l', Except.ok r)) :=
  claim_C4_lazy_memo [7, 8, 9] 1 8 (by decide)

/-- Claim C5: error asymmetry on a source of length `N`: scalar `get(N)`
drains the source and raises `IndexOutOfRange`, while a slice `[a:b]` with
`a ≤ N < b` drains the source, raises nothing, and returns exactly the
elements at indices `a..N-1`. -/
theorem claim_C5_asymmetry (xs : List α) (a b : Nat) (ha : a ≤ xs.length)
    (hb : xs.length < b) :
    getitem (LazyList.fresh xs) (IndexOrSlice.idx (xs.length : Int)) =
      ((⟨xs, none, xs.length⟩ : LazyList α), Except.error PyError.indexError)
    ∧ getitem (LazyList.fresh xs) (IndexOrSlice.slc ⟨some (a : Int), some (b : Int)⟩) =
      ((⟨xs, none, xs.length⟩ : LazyList α), Except.ok (GetResult.list (xs.drop a))) := by
  constructor
  · unfold getitem
    rw [show LazyList.fresh xs = (⟨[], some xs, 0⟩ : LazyList α) from rfl]
    rw [lget_idx_live]
    rw [expandLoop_drain xs [] 0 (xs.length : Int) (by push_cast; omega)]
    dsimp only
    simp
  · unfold getitem
    rw [show LazyList.fresh xs = (⟨[], some xs, 0⟩ : LazyList α) from rfl]
    rw [lget_slc_live]
    have hmax : sliceMax ⟨some (a : Int), some (b : Int)⟩ = (b : Int) := by
      unfold sliceMax
      dsimp only
      rw [if_neg (by omega)]
    have hdrain : expandToSlice (⟨[], some xs, 0⟩ : LazyList α)
        ⟨some (a : Int), some (b : Int)⟩ =
        ((⟨xs, none, xs.length⟩ : LazyList α), none) :=
      expandToSlice_fresh_drain xs _ (by rw [hmax]; omega)
    rw [hdrain]
    dsimp only
    rw [pyGetSlice_nat_bounds xs a b ha (by omega)]

theorem claim_C5_witness :
    getitem (LazyList.fresh [5, 6, 7]) (IndexOrSlice.idx (([5, 6, 7] : List Nat).length : Int)) =
      ((⟨[5, 6, 7], none, 3⟩ : LazyList Nat), Except.error PyError.indexError)
    ∧ getitem (LazyList.fresh [5, 6, 7])
        (IndexOrSlice.slc ⟨some ((1 : Nat) : Int), some ((9 : Nat) : Int)⟩) =
      ((⟨[5, 6, 7], none, 3⟩ : LazyList Nat), Except.ok (GetResult.list [6, 7])) :=
  claim_C5_asymmetry [5, 6, 7] 1 9 (by decide) (by decide)

/-- Claim C6 is violated by the code: the first `len()` on a three-element
source drains it, returns 3 and leaves the cache fully populated in pull
order, but a second `len()` evaluates `next(None)` — `__len__` never
re-checks the cleared iterator — and raises `TypeError` instead of
returning 3 again. -/
theorem claim_C6_len_second_call :
    llen (LazyList.fresh [0, 1, 2]) =
      ((⟨[0, 1, 2], none, 3⟩ : LazyList Nat), Except.ok 3)
    ∧ llen ((⟨[0, 1, 2], none, 3⟩ : LazyList Nat)) =
      ((⟨[0, 1, 2], none, 3⟩ : LazyList Nat), Except.error PyError.typeError) := by
  decide

/-- Claim C7: truthiness of a fresh adapter is `true` exactly when the
source has at least one element, is surfaced as a plain boolean, and
evaluates the source at most one step: the cache gains at most one element
and at most one `next()` call is made. -/
theorem claim_C7_truthiness (xs : List α) :
    ((lbool (LazyList.fresh xs)).2 = true ↔ xs ≠ [])
    ∧ (lbool (LazyList.fresh xs)).1.expanded.length ≤ 1
    ∧ pulls xs (lbool (LazyList.fresh xs)).1 ≤ 1 := by
  cases xs with
  | nil =>
      rw [lbool_fresh]
      dsimp only
      refine ⟨by simp, by simp, ?_⟩
      unfold pulls
      simp
  | cons x rest =>
      rw [lbool_fresh]
      dsimp only
      refine ⟨by simp, by simp, ?_⟩
      unfold pulls
      dsimp only
      simp

/-- Claim C8: membership scans the sequence in order with equality and
short-circuits at the first match: if the first occurrence of `v` is at
index `k`, the test returns `true` having realized exactly the `k + 1`
elements up to and including it. -/
theorem claim_C8_membership [DecidableEq α] (xs : List α) (v : α) (k fuel : Nat)
    (hget : xs.get? k = some v) (hfirst : ∀ j, j < k → xs.get? j ≠ some v)
    (hf : k + 1 ≤ fuel) :
    lcontains (LazyList.fresh xs) v fuel =
      ((⟨xs.take (k + 1), some (xs.drop (k + 1)), k + 1⟩ : LazyList α), true)
    ∧ (lcontains (LazyList.fresh xs) v fuel).1.expanded.length = k + 1 := by
  have hklen : k < xs.length := by
    by_contra hc
    rw [List.get?_eq_none.mpr (by omega)] at hget
    cases hget
  have h := containsFrom_finds k xs [] v fuel hget hfirst hf
  simp only [List.length_nil, List.nil_append, Nat.zero_add] at h
  have hmain : lcontains (LazyList.fresh xs) v fuel =
      ((⟨xs.take (k + 1), some (xs.drop (k + 1)), k + 1⟩ : LazyList α), true) := by
    unfold lcontains
    exact h
  refine ⟨hmain, ?_⟩
  rw [hmain]
  dsimp only
  simp only [List.length_take]
  omega

theorem claim_C8_witness :
    lcontains (LazyList.fresh [0, 1, 2, 3, 4, 5, 6, 7, 8, 9]) 5 6 =
      ((⟨[0, 1, 2, 3, 4, 5], some [6, 7, 8, 9], 6⟩ : LazyList Nat), true)
    ∧ (lcontains (LazyList.fresh [0, 1, 2, 3, 4, 5, 6, 7, 8, 9]) 5 6).1.expanded.length = 6 :=
  claim_C8_membership [0, 1, 2, 3, 4, 5, 6, 7, 8, 9] 5 5 6 (by decide)
    (by decide) (by decide)

/-- Claim C9: every public operation — scalar get, slice get, iteration,
length, truthiness, membership — preserves the state invariants: the
realized counter equals the cache length, the cache is only ever appended
to, and a cleared iterator stays cleared forever. -/
theorem claim_C9_invariants [DecidableEq α] (l : LazyList α) (op : Op α)
    (h : l.expanded_len = l.expanded.length) :
    (runOp l op).expanded_len = (runOp l op).expanded.length
    ∧ (∃ t, (runOp l op).expanded = l.expanded ++ t)
    ∧ (l.iterator = none → (runOp l op).iterator = none) := by
  obtain ⟨h1, h2, h3⟩ := evolves_runOp l op
  exact ⟨h1 h, h2, h3⟩

theorem claim_C9_witness :
    (runOp (LazyList.fresh [1, 2]) (Op.getIdx 0)).expanded_len =
        (runOp (LazyList.fresh [1, 2]) (Op.getIdx 0)).expanded.length
    ∧ (∃ t, (runOp (LazyList.fresh [1, 2]) (Op.getIdx 0)).expanded =
        (LazyList.fresh [1, 2]).expanded ++ t)
    ∧ ((LazyList.fresh [1, 2]).iterator = none →
        (runOp (LazyList.fresh [1, 2]) (Op.getIdx 0)).iterator = none) :=
  claim_C9_invariants (LazyList.fresh [1, 2]) (Op.getIdx 0) rfl

/-- Claim C10: a scalar access past the end of a finite source fails
without rolling anything back: `get(k)` with `k ≥ N` moves all `N` source
elements into the cache, clears the iterator in that same failing step, and
reports `IndexOutOfRange`; every later in-range access is then served from
the cache alone with the state unchanged. -/
theorem claim_C10_failed_get_keeps_progress (xs : List α) (k : Int)
    (hk : (xs.length : Int) ≤ k) :
    getitem (LazyList.fresh xs) (IndexOrSlice.idx k) =
      ((⟨xs, none, xs.length⟩ : LazyList α), Except.error PyError.indexError)
    ∧ ∀ (j : Nat) (hj : j < xs.length),
        getitem (⟨xs, none, xs.length⟩ : LazyList α) (IndexOrSlice.idx (j : Int)) =
          ((⟨xs, none, xs.length⟩ : LazyList α),
            Except.ok (GetResult.elem (xs.get ⟨j, hj⟩))) := by
  constructor
  · unfold getitem
    rw [show LazyList.fresh xs = (⟨[], some xs, 0⟩ : LazyList α) from rfl]
    rw [lget_idx_live]
    rw [expandLoop_drain xs [] 0 k (by push_cast; omega)]
    dsimp only
    simp
  · intro j hj
    unfold getitem
    rw [lget_idx_dead]
    rw [pyGetElem_lt xs j hj]

theorem claim_C10_witness :
    getitem (LazyList.fresh [4, 5]) (IndexOrSlice.idx 5) =
      ((⟨[4, 5], none, 2⟩ : LazyList Nat), Except.error PyError.indexError)
    ∧ ∀ (j : Nat) (hj : j < ([4, 5] : List Nat).length),
        getitem (⟨[4, 5], none, 2⟩ : LazyList Nat) (IndexOrSlice.idx (j : Int)) =
          ((⟨[4, 5], none, 2⟩ : LazyList Nat),
            Except.ok (GetResult.elem (([4, 5] : List Nat).get ⟨j, hj⟩))) :=
  claim_C10_failed_get_keeps_progress [4, 5] 5 (by decide)

example : (iterAll (LazyList.fresh [1, 2, 3]) 10).2 = [1, 2, 3] := by decide

example : (getitem (LazyList.fresh [0, 1, 2]) (IndexOrSlice.idx 5)).2 =
    Except.error PyError.indexError := by decide

example : (getitem (LazyList.fresh [0, 1, 2, 3]) (IndexOrSlice.slc ⟨some 1, some 9⟩)).2 =
    Except.ok (GetResult.list [1, 2, 3]) := by decide

example : (lcontains (LazyList.fresh [0, 1, 2, 3]) 2 10).1.expanded = [0, 1, 2] := by decide

end NonstrictLazy
